import Mathlib

/-!
Verification of the miner-cli repository's IP-range expander
(`internal/iprange`, embedded from the copy concatenated into
`src/internal/output/formatter.go`) and of its concurrent multi-host
command dispatcher (`internal/client/cgminer.go`).

Machine integers are modelled as `Nat` with explicit `% 2 ^ w` where the
Go code can wrap; Go's fallible functions return `Option` / `Except`.
A Go loop that can fail to terminate is embedded twice: once literally
with fuel (`rangeLoop`, `cidrLoop`), and once as the closed-form list it
produces on the inputs where it does terminate; bridging lemmas below
(`rangeLoop_returns_spec`, `cidrLoop_returns_spec`, `rangeLoop_none_max`,
`cidrLoop_none_zero`) prove the two agree, and that on the diverging
inputs the loop returns nothing for any amount of fuel.  In the
closed-form functions the diverging inputs are mapped to `none`
(that is: `none` = the Go call never returns).
-/

deriving instance DecidableEq for Except

namespace MinerCli

/-- One Go `net.IP` value as reachable in this code: `v4 n` is a 4-byte
address whose big-endian 32-bit value is `n`; `v6 n` is a 16-byte address
(not an IPv4-mapped one) whose big-endian 128-bit value is `n`.
Byte-level operations of the source map to arithmetic on the value:
`inc` (increment with byte carries) is `+ 1 % 2 ^ w`, `Mask` with a
`p`-bit prefix mask clears the low `w - p` bits, `ipToUint32` of a 4-byte
address is the value itself, and `IsUnspecified` (0.0.0.0 or ::) is
`value = 0`. -/
inductive IPAddr where
  | v4 (n : Nat)
  | v6 (n : Nat)
deriving DecidableEq, Repr

/-- Value of a decimal digit character. -/
def decVal (c : Char) : Nat := c.toNat - 48

/-- Decimal value of a digit list, most significant first. -/
def digitsVal (cs : List Char) : Nat := cs.foldl (fun a c => a * 10 + decVal c) 0

/-- Go `strings.Split` with a one-character separator, on the character
list of the string (reimplemented structurally; same semantics as the
library function: empty pieces are kept, the empty string yields one
empty piece). -/
def splitChar (c : Char) : List Char → List (List Char)
  | [] => [[]]
  | a :: rest =>
    if a = c then [] :: splitChar c rest
    else
      match splitChar c rest with
      | [] => [[a]]
      | g :: gs => (a :: g) :: gs

/-- Go `strings.Split` with the two-character separator `::`, scanning
left to right over non-overlapping occurrences. -/
def splitColonColon : List Char → List (List Char)
  | [] => [[]]
  | [a] => [[a]]
  | a :: b :: rest =>
    if a = ':' ∧ b = ':' then [] :: splitColonColon rest
    else
      match splitColonColon (b :: rest) with
      | [] => [[a]]
      | g :: gs => (a :: g) :: gs

/-- Go `strings.TrimSpace` (over the ASCII whitespace the claims use). -/
def trimChars (cs : List Char) : List Char :=
  ((cs.dropWhile Char.isWhitespace).reverse.dropWhile Char.isWhitespace).reverse

/-- One dotted-quad field as Go `net.ParseIP` accepts it: 1-3 decimal
digits, no leading zero (Go rejects leading zeros in IPv4 literals),
value at most 255. -/
def parseV4Field (cs : List Char) : Option Nat :=
  if cs.length = 0 || decide (cs.length > 3) then none
  else if !(cs.all Char.isDigit) then none
  else if decide (cs.length > 1) && (cs.head? == some '0') then none
  else if digitsVal cs ≤ 255 then some (digitsVal cs) else none

/-- Go `net.ParseIP` on a dotted-quad IPv4 literal: exactly four valid
fields separated by dots; result is the big-endian 32-bit value. -/
def parseIPv4 (cs : List Char) : Option Nat :=
  match splitChar '.' cs with
  | [a, b, c, d] =>
    match parseV4Field a, parseV4Field b, parseV4Field c, parseV4Field d with
    | some x, some y, some z, some w => some (((x * 256 + y) * 256 + z) * 256 + w)
    | _, _, _, _ => none
  | _ => none

/-- Value of one hexadecimal digit. -/
def hexVal (c : Char) : Option Nat :=
  if c.isDigit then some (c.toNat - 48)
  else if ('a' ≤ c) && (c ≤ 'f') then some (c.toNat - 97 + 10)
  else if ('A' ≤ c) && (c ≤ 'F') then some (c.toNat - 65 + 10)
  else none

/-- One colon-hex IPv6 group: 1-4 hex digits. -/
def parseV6Group (cs : List Char) : Option Nat :=
  if cs.length = 0 || decide (cs.length > 4) then none
  else (cs.mapM hexVal).map (fun ds => ds.foldl (fun a d => a * 16 + d) 0)

/-- The colon-separated groups of one side of an IPv6 literal. -/
def v6Groups (cs : List Char) : Option (List Nat) :=
  (splitChar ':' cs).mapM parseV6Group

/-- Combine left groups, the zero groups abbreviated by a `::`, and right
groups into the 128-bit value. -/
def combineV6 (l r : List Nat) : Nat :=
  (l ++ List.replicate (8 - l.length - r.length) 0 ++ r).foldl
    (fun a g => a * 65536 + g) 0

/-- Go `net.ParseIP` on a colon-hex IPv6 literal: eight groups, or fewer
with a single `::` abbreviation.  (The embedded-IPv4 tail form
`::ffff:a.b.c.d` is not modelled; no claim exercises it.) -/
def parseIPv6 (cs : List Char) : Option Nat :=
  match splitColonColon cs with
  | [whole] =>
    match v6Groups whole with
    | some gs => if gs.length = 8 then some (combineV6 gs []) else none
    | none => none
  | [l, r] =>
    match (if l = [] then some [] else v6Groups l),
        (if r = [] then some [] else v6Groups r) with
    | some a, some b =>
      if a.length + b.length ≤ 7 then some (combineV6 a b) else none
    | _, _ => none
  | _ => none

/-- Go `net.ParseIP`: the first `.` or `:` in the string selects the
IPv4 or the IPv6 grammar; anything else fails. -/
def goParseIP (cs : List Char) : Option IPAddr :=
  match cs.find? (fun c => c == '.' || c == ':') with
  | some '.' => (parseIPv4 cs).map IPAddr.v4
  | some ':' => (parseIPv6 cs).map IPAddr.v6
  | _ => none

/-- Rendering of a 4-byte address, Go `net.IP.String`: dotted quad. -/
def v4String (n : Nat) : String :=
  toString (n / 16777216 % 256) ++ "." ++ toString (n / 65536 % 256) ++ "." ++
    toString (n / 256 % 256) ++ "." ++ toString (n % 256)

/-- Go `net.IP.String`.  For 16-byte addresses Go produces the RFC 5952
text; the exact text is irrelevant to the code under verification (it is
only compared for equality during deduplication), so a stand-in is used
that keeps the two facts the code relies on: distinct 16-byte addresses
render distinctly, and a 16-byte render (which contains a colon) never
collides with a dotted quad (which does not). -/
def ipString : IPAddr → String
  | .v4 n => v4String n
  | .v6 n => ":" ++ toString n

/-- The error cases of the expander, one constructor per distinct
`fmt.Errorf` site, carrying the strings Go formats into the message. -/
inductive Err where
  | invalidCIDR (s : String)
  | rangeFormat (s : String)
  | invalidRange (s : String)
  | onlyIPv4
  | rangeOrder
  | invalidIP (s : String)
  | wrap (spec : String) (e : Err)
deriving DecidableEq, Repr

/-- Apply a `p`-bit prefix mask to a `bits`-wide address value: Go's
`IP.Mask` is bitwise-and with `p` one bits then `bits - p` zero bits,
which on values below `2 ^ bits` is exactly clearing the low
`bits - p` bits. -/
def maskHigh (bits p n : Nat) : Nat := n / 2 ^ (bits - p) * 2 ^ (bits - p)

/-- The decimal prefix-length parser Go's `ParseCIDR` uses (`dtoi` plus a
whole-string check): nonempty, all digits. -/
def parseDecNat (cs : List Char) : Option Nat :=
  if cs.length = 0 || !(cs.all Char.isDigit) then none
  else some (digitsVal cs)

/-- Address width in bits of a `net.IP` of this family. -/
def ipBits : IPAddr → Nat
  | .v4 _ => 32
  | .v6 _ => 128

/-- `IP.Mask` on either family. -/
def maskIP : IPAddr → Nat → IPAddr
  | .v4 n, p => .v4 (maskHigh 32 p n)
  | .v6 n, p => .v6 (maskHigh 128 p n)

/-- Go `net.ParseCIDR`: split at the slash, parse the address with
`net.ParseIP`'s grammar and the prefix length as a decimal number no
larger than the address width; the returned network is the address with
the mask applied (the repository re-applies the mask, a no-op). -/
def goParseCIDR (cs : List Char) : Option (IPAddr × Nat) :=
  match splitChar '/' cs with
  | [a, m] =>
    match goParseIP a, parseDecNat m with
    | some ip, some p => if p ≤ ipBits ip then some (maskIP ip p, p) else none
    | _, _ => none
  | _ => none

/-- The ascending enumeration the source's
`for ip := network; ipNet.Contains(ip); inc(ip)` loop appends, in closed
form: all `2 ^ (bits - p)` values of the block starting at the masked
network.  `cidrLoop_returns_spec` below proves this is what the literal
loop returns whenever `1 ≤ p` (for `p = 0` the loop never exits:
`cidrLoop_none_zero`). -/
def cidrEnum (bits net p : Nat) : List Nat :=
  (List.range (2 ^ (bits - p))).map (net + ·)

/-- The source's `isBroadcast`: false unless the address is 4 bytes wide;
false when the mask has as many one bits as the address has bits
(`ones == bits`, a /32); otherwise compare against `network | ^mask`,
which is `net + 2 ^ (bits - p) - 1`. -/
def isBroadcastN (isV4 : Bool) (bits p net x : Nat) : Bool :=
  if !isV4 then false
  else if p = bits then false
  else x == net + 2 ^ (bits - p) - 1

/-- The second trim `parseCIDR` applies: drop the last address if
`isBroadcast` holds of it (the source guards with `len(ips) > 0`, which
is the `none` case of `getLast?`). -/
def dropBroadcast (isV4 : Bool) (bits net p : Nat) (ips : List Nat) : List Nat :=
  match ips.getLast? with
  | some x => if isBroadcastN isV4 bits p net x then ips.dropLast else ips
  | none => ips

/-- The two trims `parseCIDR` applies to the enumerated block, in source
order: drop the first address if it `IsUnspecified` (value 0, guarded by
`len(ips) > 0` — the `head?` probe), then drop the broadcast. -/
def dropEdges (isV4 : Bool) (bits net p : Nat) (ips : List Nat) : List Nat :=
  dropBroadcast isV4 bits net p (if ips.head? = some 0 then ips.tail else ips)

/-- The value-level body of the source's `parseCIDR` after `ParseCIDR`
succeeded, for a family with `bits` bits and network `net` already
masked: enumerate the block, then trim the edges. -/
def parseCIDRCore (isV4 : Bool) (bits net p : Nat) : List Nat :=
  dropEdges isV4 bits net p (cidrEnum bits net p)

/-- The source's `parseCIDR`.  `none` models the call never returning:
for a /0 the enumeration loop's `Contains` test never fails
(`cidrLoop_none_zero`). -/
def parseCIDR (t : List Char) : Option (Except Err (List IPAddr)) :=
  match goParseCIDR t with
  | none => some (.error (.invalidCIDR (String.mk t)))
  | some (ip, p) =>
    if p = 0 then none
    else
      match ip with
      | .v4 net => some (.ok ((parseCIDRCore true 32 net p).map IPAddr.v4))
      | .v6 net => some (.ok ((parseCIDRCore false 128 net p).map IPAddr.v6))

/-- The ascending enumeration of the source's
`for i := startInt; i <= endInt; i++` walk, in closed form.
`rangeLoop_returns_spec` below proves this is what the literal loop
returns whenever `e < 2 ^ 32 - 1`. -/
def rangeEnum (s e : Nat) : List Nat := (List.range (e + 1 - s)).map (s + ·)

/-- Go `IP.To4`: the 4-byte form, or nil for a 16-byte address that is
not IPv4-mapped. -/
def to4 : IPAddr → Option Nat
  | .v4 n => some n
  | .v6 _ => none

/-- The source's `parseRange`: split on every dash (exactly two pieces
required), `TrimSpace` and parse both endpoints, require the 4-byte
family of both, reject descending ranges, then walk.  `none` models the
call never returning: when the end is 255.255.255.255 the `uint32`
counter wraps past it and the loop's test `i <= endInt` never fails
(`rangeLoop_none_max`). -/
def parseRange (t : List Char) : Option (Except Err (List IPAddr)) :=
  match splitChar '-' t with
  | [a, b] =>
    match goParseIP (trimChars a), goParseIP (trimChars b) with
    | some ipa, some ipb =>
      match to4 ipa, to4 ipb with
      | some s, some e =>
        if s > e then some (.error .rangeOrder)
        else if e = 2 ^ 32 - 1 then none
        else some (.ok ((rangeEnum s e).map IPAddr.v4))
      | _, _ => some (.error .onlyIPv4)
    | _, _ => some (.error (.invalidRange (String.mk t)))
  | _ => some (.error (.rangeFormat (String.mk t)))

/-- The dispatch of the source's `ParseIPRange` after the trim: a string
containing a slash is a CIDR, else one containing a dash is a range,
else a single address. -/
def parseTrimmed (t : List Char) : Option (Except Err (List IPAddr)) :=
  if t.any (fun c => c == '/') then parseCIDR t
  else if t.any (fun c => c == '-') then parseRange t
  else
    match goParseIP t with
    | none => some (.error (.invalidIP (String.mk t)))
    | some ip => some (.ok [ip])

/-- The source's `ParseIPRange`: `strings.TrimSpace`, then dispatch. -/
def ParseIPRange (input : String) : Option (Except Err (List IPAddr)) :=
  parseTrimmed (trimChars input.data)

/-- One step of the source's `ParseMultipleRanges` accumulation: append
the address unless its rendered string was already seen.  (The source
keeps a `seenIPs` set alongside `allIPs`; the set always holds exactly
the rendered strings of the accumulated list, so membership in it is
membership in the rendered accumulator.) -/
def insertIP (acc : List IPAddr) (ip : IPAddr) : List IPAddr :=
  if (acc.map ipString).contains (ipString ip) then acc else acc ++ [ip]

/-- Fold a block of addresses into the accumulator, first-seen order. -/
def dedupIPs (acc : List IPAddr) (l : List IPAddr) : List IPAddr :=
  l.foldl insertIP acc

/-- The loop of the source's `ParseMultipleRanges`: parse each spec in
input order; a failed spec aborts the whole call with the error wrapped
as `error parsing <spec>: <err>`; each successful block is merged with
deduplication.  `none` propagates a spec on which `ParseIPRange` never
returns. -/
def pmrAux : List String → List IPAddr → Option (Except Err (List IPAddr))
  | [], acc => some (.ok acc)
  | s :: rest, acc =>
    match ParseIPRange s with
    | none => none
    | some (.error e) => some (.error (.wrap s e))
    | some (.ok ips) => pmrAux rest (dedupIPs acc ips)

/-- The source's `ParseMultipleRanges`. -/
def ParseMultipleRanges (inputs : List String) : Option (Except Err (List IPAddr)) :=
  pmrAux inputs []

/-- The source's `GetIPs`: render every address. -/
def GetIPs (l : List IPAddr) : List String := l.map ipString

/-- The address list of a successful parse (empty otherwise); used to
state concrete facts compactly. -/
def okList : Option (Except Err (List IPAddr)) → List IPAddr
  | some (.ok l) => l
  | _ => []

/-- Whether a parse succeeded. -/
def isOk : Option (Except Err (List IPAddr)) → Bool
  | some (.ok _) => true
  | _ => false

/-- The literal range walk of `parseRange`, fuel-indexed:
`for i := startInt; i <= endInt; i++ { append(i) }` over `uint32`, so
the increment wraps at `2 ^ 32`.  `none` means the fuel ran out before
the loop exited. -/
def rangeLoop (endInt : Nat) : Nat → Nat → List Nat → Option (List Nat)
  | 0, _, _ => none
  | fuel + 1, i, acc =>
    if i ≤ endInt then rangeLoop endInt fuel ((i + 1) % 2 ^ 32) (acc ++ [i])
    else some acc

/-- The walk started at `start` never returns, however much fuel. -/
def RangeLoopDiverges (endInt start : Nat) : Prop :=
  ∀ fuel acc, rangeLoop endInt fuel start acc = none

/-- The literal CIDR enumeration loop of `parseCIDR`, fuel-indexed:
`for ip := network; ipNet.Contains(ip); inc(ip) { append(ip) }`, where
`Contains ip` is `ip.Mask(mask) == network` and `inc` wraps at the
family width. -/
def cidrLoop (bits p net : Nat) : Nat → Nat → List Nat → Option (List Nat)
  | 0, _, _ => none
  | fuel + 1, i, acc =>
    if maskHigh bits p i = net then
      cidrLoop bits p net fuel ((i + 1) % 2 ^ bits) (acc ++ [i])
    else some acc

/-- The enumeration started at `start` never returns, however much fuel. -/
def CIDRLoopDiverges (bits p net start : Nat) : Prop :=
  ∀ fuel acc, cidrLoop bits p net fuel start acc = none

/-! ## The concurrent dispatcher (`internal/client/cgminer.go`)

The worker pool is embedded by its observable behaviour: every job is
taken from the channel by exactly one worker, produces exactly one
`Result` on the results channel (or panics, crashing the process), and
the collected report is those results in some arrival order — a
permutation of the per-job results.  Network responses and measured
durations are oracles supplied as parameters; whether the run-level
context was already cancelled when a given job was dequeued is an oracle
`cancelSeen` indexed by the job's submission position. -/

/-- One parameter value of the `map[string]interface{}` bag, as the
dispatcher's type assertions distinguish them. -/
inductive PVal where
  | int (i : Int)
  | str (s : String)
  | other
deriving DecidableEq, Repr

/-- The parameter bag; Go map lookup of an absent key yields the zero
`interface{}`, whose type assertions all fail — here `none`. -/
def Params := List (String × PVal)

/-- Look a key up in the bag. -/
def pget (ps : Params) (k : String) : Option PVal :=
  (ps.find? (fun q => q.1 == k)).map (·.2)

/-- A success payload, opaque to the dispatcher: the typed responses of
the cgminer library (`blob`), the literal status strings the dispatcher
itself produces (`str`), and a pools listing (`pools`, each pool an
opaque tag) which the pool commands index into. -/
inductive Payload where
  | blob (tag : Nat)
  | str (s : String)
  | pools (ps : List Nat)
deriving DecidableEq, Repr

/-- The cgminer protocol client for one (host, port): each field is the
response the remote would give to that call of the library.  Errors are
the message strings; a Go `error` is non-nil exactly when this is
`.error`. -/
structure MinerAPI where
  summary : Except String Payload
  devs : Except String Payload
  pools : Except String (List Nat)
  stats : Except String Payload
  version : Except String Payload
  switchPool : Nat → Except String Unit
  enablePool : Nat → Except String Unit
  disablePool : Nat → Except String Unit
  removePool : Nat → Except String Unit
  addPool : String → String → String → Except String Unit
  restart : Except String Unit
  quit : Except String Unit
  rawCall : String → Except String Payload

/-- The network: a protocol client per (host, port), as
`cgminer.NewCGMiner(ip, port, timeout)` reaches it. -/
def Network := String → Int → MinerAPI

/-- The source's `Result`: `response` is `none` when Go leaves the
`interface{}` field nil, `error` is `none` when Go leaves the string
field at its zero value `""` (the dispatcher writes it only from a
non-nil `error`), `duration` is `""` when Go never writes the field. -/
structure Result where
  ip : String
  port : Int
  command : String
  response : Option Payload
  error : Option String
  duration : String
deriving DecidableEq, Repr

/-- The source's `job`. -/
structure Job where
  ip : String
  port : Int
  command : String
  params : Params

/-- `response, err = call()` for a payload-returning library call:
one protocol invocation. -/
def callR (e : Except String Payload) : Option Payload × Option String × Nat :=
  match e with
  | .ok p => (some p, none, 1)
  | .error m => (none, some m, 1)

/-- An action call (`Restart`, `Quit`) that reports a fixed status
string on success: one protocol invocation. -/
def actR (e : Except String Unit) (okMsg : String) : Option Payload × Option String × Nat :=
  match e with
  | .ok _ => (some (.str okMsg), none, 1)
  | .error m => (none, some m, 1)

/-- The shared shape of the `switchpool` / `enablepool` / `disablepool` /
`removepool` cases (the source repeats this block literally four times,
with `call` and the two message strings varying): assert the `pool`
parameter to `int`, fetch the pools list (one invocation), check
`poolID < len(pools)`, and act on `pools[poolID]` (a second
invocation).  `none` embeds the Go panic `index out of range`: the
bounds test only checks the upper bound, so a negative id that passes it
indexes the slice below zero and crashes the process. -/
def poolBranch (api : MinerAPI) (call : Nat → Except String Unit)
    (okMsg reqMsg : String) (params : Params) :
    Option (Option Payload × Option String × Nat) :=
  match pget params "pool" with
  | some (.int i) =>
    match api.pools with
    | .error e => some (none, some ("failed to get pools: " ++ e), 1)
    | .ok pools =>
      if i < (pools.length : Int) then
        if i < 0 then none
        else
          match call (pools.getD i.toNat 0) with
          | .ok _ => some (some (.str okMsg), none, 2)
          | .error e => some (none, some e, 2)
      else some (none, some ("pool ID " ++ toString i ++ " not found"), 1)
  | _ => some (none, some reqMsg, 0)

/-- The `switch j.command` of the source's `executeJob`, producing the
response, the error, and how many protocol invocations were attempted;
`none` is a panic.  The `custom` case folds the library's
marshal/unmarshal plumbing into the oracle's `rawCall`. -/
def runCase (api : MinerAPI) (j : Job) :
    Option (Option Payload × Option String × Nat) :=
  if j.command = "summary" then some (callR api.summary)
  else if j.command = "devs" then some (callR api.devs)
  else if j.command = "pools" then some (callR (api.pools.map Payload.pools))
  else if j.command = "stats" then some (callR api.stats)
  else if j.command = "version" then some (callR api.version)
  else if j.command = "switchpool" then
    poolBranch api api.switchPool "Pool switched successfully"
      "switchpool command requires 'pool' parameter" j.params
  else if j.command = "enablepool" then
    poolBranch api api.enablePool "Pool enabled successfully"
      "enablepool command requires 'pool' parameter" j.params
  else if j.command = "disablepool" then
    poolBranch api api.disablePool "Pool disabled successfully"
      "disablepool command requires 'pool' parameter" j.params
  else if j.command = "addpool" then
    match pget j.params "url", pget j.params "user", pget j.params "pass" with
    | some (.str url), some (.str user), some (.str pass) =>
      some (actR (api.addPool url user pass) "Pool added successfully")
    | _, _, _ =>
      some (none, some "addpool requires 'url', 'user', and 'pass' parameters", 0)
  else if j.command = "removepool" then
    poolBranch api api.removePool "Pool removed successfully"
      "removepool command requires 'pool' parameter" j.params
  else if j.command = "restart" then some (actR api.restart "Miner restarting")
  else if j.command = "quit" then some (actR api.quit "Miner quitting")
  else if j.command = "custom" then
    match pget j.params "cmd" with
    | some (.str c) => some (callR (api.rawCall c))
    | _ => some (none, some "custom command requires 'cmd' parameter", 0)
  else some (none, some ("unknown command: " ++ j.command), 0)

/-- The duration oracle: what `time.Since(start).String()` renders for
the execution of a given job.  (Go's `Duration.String` never renders the
empty string.) -/
def Clock := Job → String

/-- The source's `executeJob`: run the command's case, then assemble the
`Result` — identity fields and duration always, and exactly one of the
response (when `err == nil`) or the error message (when not). -/
def executeJob (net : Network) (clock : Clock) (j : Job) :
    Option (Result × Nat) :=
  (runCase (net j.ip j.port) j).map (fun out =>
    (⟨j.ip, j.port, j.command,
      (if out.2.1 = none then out.1 else none), out.2.1, clock j⟩, out.2.2))

/-- The `Result` the worker's cancellation branch writes: identity
fields and the `context cancelled` error only; the `Duration` field is
never assigned and keeps its zero value `""`. -/
def cancelResult (j : Job) : Result :=
  ⟨j.ip, j.port, j.command, none, some "context cancelled", ""⟩

/-- One iteration of the worker's drain loop for one dequeued job: the
`select` takes the `ctx.Done()` branch exactly when the context was
already cancelled (Go's `select` prefers a ready case over `default`),
producing the cancellation result with no protocol invocation;
otherwise it executes the job. -/
def processJob (net : Network) (clock : Clock) (cancelled : Bool) (j : Job) :
    Option (Result × Nat) :=
  if cancelled then some (cancelResult j, 0) else executeJob net clock j

/-- The jobs `ExecuteCommand` enqueues, in `ips` order. -/
def mkJobs (ips : List String) (port : Int) (command : String) (params : Params) :
    List Job :=
  ips.map (fun ip => ⟨ip, port, command, params⟩)

/-- Per-job results of the whole pool, in submission order, with the
per-job protocol-invocation counts; the job at submission position `i`
observes cancellation state `cancelSeen i`.  `none` embeds a panic in
any worker, which crashes the process before a report exists. -/
def runJobs (net : Network) (clock : Clock) (cancelSeen : Nat → Bool) :
    List Job → Nat → Option (List (Result × Nat))
  | [], _ => some []
  | j :: rest, i =>
    match processJob net clock (cancelSeen i) j with
    | none => none
    | some r => (runJobs net clock cancelSeen rest (i + 1)).map (r :: ·)

/-- The source's `Client`. -/
structure Client where
  timeout : Int
  workers : Int

/-- The source's `NewClient`: a non-positive configured worker count is
replaced by 10. -/
def NewClient (timeout workers : Int) : Client :=
  ⟨timeout, if workers ≤ 0 then 10 else workers⟩

/-- The source's `GetAvailableCommands`. -/
def GetAvailableCommands : List String :=
  ["summary", "devs", "pools", "stats", "version", "switchpool", "enablepool",
   "disablepool", "addpool", "removepool", "restart", "quit", "custom"]

/-- The report `ExecuteCommand` returns for a run: some arrival-order
permutation of the per-job results.  (The worker count of the client —
always positive after `NewClient` — affects only the interleaving, never
the multiset of results: each job is consumed by exactly one worker and
contributes exactly one result.)  No `r` satisfies this when a worker
panics. -/
def Reports (net : Network) (clock : Clock) (cancelSeen : Nat → Bool)
    (ips : List String) (port : Int) (command : String) (params : Params)
    (r : List Result) : Prop :=
  ∃ l, runJobs net clock cancelSeen (mkJobs ips port command params) 0 = some l ∧
    (l.map Prod.fst).Perm r

/-- Total number of protocol invocations the run attempted; `none` when
the run crashed. -/
def RunCalls (net : Network) (clock : Clock) (cancelSeen : Nat → Bool)
    (ips : List String) (port : Int) (command : String) (params : Params) :
    Option Nat :=
  (runJobs net clock cancelSeen (mkJobs ips port command params) 0).map
    (fun l => (l.map Prod.snd).sum)

/-! ## Helper lemmas: the ascending enumerations -/

theorem rangeEnum_length (s e : Nat) : (rangeEnum s e).length = e + 1 - s := by
  simp [rangeEnum]

theorem rangeEnum_mem {s e x : Nat} : x ∈ rangeEnum s e ↔ s ≤ x ∧ x ≤ e := by
  simp only [rangeEnum, List.mem_map, List.mem_range]
  constructor
  · rintro ⟨i, hi, rfl⟩
    omega
  · rintro ⟨h1, h2⟩
    exact ⟨x - s, by omega, by omega⟩

theorem rangeEnum_cons {s e : Nat} (h : s ≤ e) :
    rangeEnum s e = s :: rangeEnum (s + 1) e := by
  unfold rangeEnum
  have h1 : e + 1 - s = (e - s) + 1 := by omega
  have h2 : e + 1 - (s + 1) = e - s := by omega
  rw [h1, h2, List.range_succ_eq_map, List.map_cons, List.map_map]
  refine congrArg₂ (· :: ·) (by omega) (List.map_congr_left ?_)
  intro a _
  simp only [Function.comp_apply, Nat.succ_eq_add_one]
  omega

theorem rangeEnum_concat {s e : Nat} (h : s ≤ e) (he : 1 ≤ e) :
    rangeEnum s e = rangeEnum s (e - 1) ++ [e] := by
  unfold rangeEnum
  have h1 : e + 1 - s = (e - 1 + 1 - s) + 1 := by omega
  rw [h1, List.range_succ, List.map_append, List.map_singleton]
  refine congrArg₂ (· ++ ·) rfl (congrArg (fun x => [x]) (by omega))

theorem rangeEnum_head {s e : Nat} (h : s ≤ e) :
    (rangeEnum s e).head? = some s := by
  rw [rangeEnum_cons h]
  rfl

theorem rangeEnum_getLast {s e : Nat} (h : s ≤ e) :
    (rangeEnum s e).getLast? = some e := by
  rcases Nat.eq_zero_or_pos e with he | he
  · subst he
    have hs : s = 0 := by omega
    subst hs
    rfl
  · rw [rangeEnum_concat h he]
    exact List.getLast?_concat _

theorem rangeEnum_dropLast {s e : Nat} (h : s ≤ e) (he : 1 ≤ e) :
    (rangeEnum s e).dropLast = rangeEnum s (e - 1) := by
  rw [rangeEnum_concat h he]
  exact List.dropLast_concat

theorem rangeEnum_pairwise (s e : Nat) : (rangeEnum s e).Pairwise (· < ·) := by
  unfold rangeEnum
  exact (List.pairwise_lt_range _).map _ (fun a b hab => by omega)

theorem rangeEnum_empty {s e : Nat} (h : e < s) : rangeEnum s e = [] := by
  unfold rangeEnum
  have : e + 1 - s = 0 := by omega
  rw [this]
  rfl

theorem cidrEnum_eq_rangeEnum (bits net p : Nat) :
    cidrEnum bits net p = rangeEnum net (net + 2 ^ (bits - p) - 1) := by
  unfold cidrEnum rangeEnum
  have hpos : 1 ≤ 2 ^ (bits - p) := Nat.one_le_two_pow
  have harg : net + 2 ^ (bits - p) - 1 + 1 - net = 2 ^ (bits - p) := by omega
  rw [harg]

/-! ## Helper lemmas: the literal loops return the closed forms -/

theorem rangeLoop_none_max :
    ∀ fuel i acc, i < 2 ^ 32 → rangeLoop (2 ^ 32 - 1) fuel i acc = none := by
  intro fuel
  induction fuel with
  | zero => intro i acc _; rfl
  | succ n ih =>
    intro i acc hi
    have h : i ≤ 2 ^ 32 - 1 := by omega
    simp only [rangeLoop, if_pos h]
    exact ih _ _ (Nat.mod_lt _ (by norm_num))

theorem rangeLoop_returns_spec {e : Nat} (he : e < 2 ^ 32 - 1) :
    ∀ fuel s acc, s ≤ e + 1 → e + 2 - s ≤ fuel →
    rangeLoop e fuel s acc = some (acc ++ rangeEnum s e) := by
  intro fuel
  induction fuel with
  | zero => intro s acc h1 h2; omega
  | succ n ih =>
    intro s acc h1 h2
    by_cases hs : s ≤ e
    · have hmod : (s + 1) % 2 ^ 32 = s + 1 := Nat.mod_eq_of_lt (by omega)
      simp only [rangeLoop, if_pos hs, hmod]
      rw [ih (s + 1) (acc ++ [s]) (by omega) (by omega), rangeEnum_cons hs]
      simp
    · have hs' : s = e + 1 := by omega
      simp only [rangeLoop, if_neg hs]
      rw [hs', rangeEnum_empty (by omega), List.append_nil]

theorem cidrLoop_none_zero (bits : Nat) :
    ∀ fuel i acc, i < 2 ^ bits → cidrLoop bits 0 0 fuel i acc = none := by
  intro fuel
  induction fuel with
  | zero => intro i acc _; rfl
  | succ n ih =>
    intro i acc hi
    have h : maskHigh bits 0 i = 0 := by
      unfold maskHigh
      rw [Nat.sub_zero, Nat.div_eq_of_lt hi, Nat.zero_mul]
    simp only [cidrLoop, if_pos h]
    exact ih _ _ (Nat.mod_lt _ (Nat.pos_pow_of_pos _ (by omega)))

theorem maskHigh_window {bits p net k : Nat} (hmask : net % 2 ^ (bits - p) = 0)
    (hk : k < 2 ^ (bits - p)) : maskHigh bits p (net + k) = net := by
  obtain ⟨q, hq⟩ := Nat.dvd_of_mod_eq_zero hmask
  have hpos : 0 < 2 ^ (bits - p) := Nat.one_le_two_pow
  subst hq
  unfold maskHigh
  rw [Nat.mul_add_div hpos, Nat.div_eq_of_lt hk, Nat.add_zero, Nat.mul_comm]

theorem cidrLoop_returns_spec {bits p net : Nat} (hp : 1 ≤ p) (hpb : p ≤ bits)
    (hnet : net < 2 ^ bits) (hmask : net % 2 ^ (bits - p) = 0) :
    ∀ fuel k acc, k ≤ 2 ^ (bits - p) → 2 ^ (bits - p) + 1 - k ≤ fuel →
    cidrLoop bits p net fuel ((net + k) % 2 ^ bits) acc =
      some (acc ++ rangeEnum (net + k) (net + 2 ^ (bits - p) - 1)) := by
  have hszpos : 0 < 2 ^ (bits - p) := Nat.one_le_two_pow
  have hpowsplit : 2 ^ (bits - p) * 2 ^ p = 2 ^ bits := by
    rw [← Nat.pow_add]
    congr 1
    omega
  have hfit : net + 2 ^ (bits - p) ≤ 2 ^ bits := by
    obtain ⟨q, hq⟩ := Nat.dvd_of_mod_eq_zero hmask
    have hqlt : q < 2 ^ p := by
      by_contra hc
      push_neg at hc
      have h2 : 2 ^ (bits - p) * 2 ^ p ≤ 2 ^ (bits - p) * q := Nat.mul_le_mul_left _ hc
      rw [hpowsplit] at h2
      omega
    have h3 : 2 ^ (bits - p) * (q + 1) ≤ 2 ^ bits := by
      calc 2 ^ (bits - p) * (q + 1) ≤ 2 ^ (bits - p) * 2 ^ p :=
            Nat.mul_le_mul_left _ (by omega)
        _ = 2 ^ bits := hpowsplit
    have h4 : 2 ^ (bits - p) * (q + 1) = 2 ^ (bits - p) * q + 2 ^ (bits - p) := by ring
    omega
  intro fuel
  induction fuel with
  | zero => intro k acc h1 h2; omega
  | succ n ih =>
    intro k acc h1 h2
    by_cases hk : k < 2 ^ (bits - p)
    · have hlt : net + k < 2 ^ bits := by omega
      have hmod : (net + k) % 2 ^ bits = net + k := Nat.mod_eq_of_lt hlt
      have hcond : maskHigh bits p (net + k) = net := maskHigh_window hmask hk
      rw [hmod]
      simp only [cidrLoop, if_pos hcond]
      have hstep : (net + k + 1) % 2 ^ bits = (net + (k + 1)) % 2 ^ bits := rfl
      rw [hstep, ih (k + 1) (acc ++ [net + k]) (by omega) (by omega)]
      have harg : net + (k + 1) = net + k + 1 := by omega
      rw [harg, rangeEnum_cons (show net + k ≤ net + 2 ^ (bits - p) - 1 by omega)]
      try simp
    · have hk' : k = 2 ^ (bits - p) := by omega
      subst hk'
      obtain ⟨q, hq⟩ := Nat.dvd_of_mod_eq_zero hmask
      have hszlt : 2 ^ (bits - p) < 2 ^ bits := by
        have hblt : bits - p < bits := by omega
        exact Nat.pow_lt_pow_right (by omega) hblt
      have hccase : maskHigh bits p ((net + 2 ^ (bits - p)) % 2 ^ bits) ≠ net := by
        rcases Nat.lt_or_ge (net + 2 ^ (bits - p)) (2 ^ bits) with hlt | hge
        · rw [Nat.mod_eq_of_lt hlt]
          unfold maskHigh
          have hsplit : net + 2 ^ (bits - p) = 2 ^ (bits - p) * (q + 1) := by
            rw [hq]; ring
          rw [hsplit, Nat.mul_div_cancel_left _ hszpos]
          have hexp : (q + 1) * 2 ^ (bits - p) = 2 ^ (bits - p) * q + 2 ^ (bits - p) := by
            ring
          rw [hexp, hq]
          omega
        · have heq : net + 2 ^ (bits - p) = 2 ^ bits := by omega
          rw [heq, Nat.mod_self]
          unfold maskHigh
          rw [Nat.zero_div, Nat.zero_mul]
          omega
      simp only [cidrLoop, if_neg hccase]
      rw [rangeEnum_empty (by omega), List.append_nil]

/-! ## Helper lemmas: what `parseCIDR` keeps of the enumerated block -/

theorem parseV4Field_le {cs : List Char} {v : Nat} (h : parseV4Field cs = some v) :
    v ≤ 255 := by
  unfold parseV4Field at h
  split_ifs at h
  all_goals simp_all

theorem parseIPv4_lt {cs : List Char} {n : Nat} (h : parseIPv4 cs = some n) :
    n < 2 ^ 32 := by
  unfold parseIPv4 at h
  split at h
  · split at h
    · rename_i x y z w hx hy hz hw
      have bx := parseV4Field_le hx
      have by' := parseV4Field_le hy
      have bz := parseV4Field_le hz
      have bw := parseV4Field_le hw
      injection h with h
      omega
    · exact absurd h (by simp)
  · exact absurd h (by simp)

theorem goParseIP_v4_lt {cs : List Char} {n : Nat} (h : goParseIP cs = some (.v4 n)) :
    n < 2 ^ 32 := by
  unfold goParseIP at h
  split at h
  · cases hm : parseIPv4 cs with
    | none => rw [hm] at h; exact absurd h (by simp)
    | some m =>
      rw [hm, Option.map_some'] at h
      injection h with h
      injection h with h
      subst h
      exact parseIPv4_lt hm
  · cases hm : parseIPv6 cs with
    | none => rw [hm] at h; exact absurd h (by simp)
    | some m =>
      rw [hm, Option.map_some'] at h
      injection h with h
      exact absurd h (by simp)
  · exact absurd h (by simp)

theorem goParseCIDR_v4_inv {cs : List Char} {net p : Nat}
    (h : goParseCIDR cs = some (.v4 net, p)) :
    p ≤ 32 ∧ net < 2 ^ 32 ∧ net % 2 ^ (32 - p) = 0 := by
  unfold goParseCIDR at h
  split at h
  · split at h
    · rename_i ip p0 hip hp0
      split_ifs at h with hle
      · cases ip with
        | v4 n0 =>
          simp only [maskIP, Option.some.injEq, Prod.mk.injEq, IPAddr.v4.injEq] at h
          obtain ⟨h1, h2⟩ := h
          subst h2
          have hn0 : n0 < 2 ^ 32 := goParseIP_v4_lt hip
          simp only [ipBits] at hle
          refine ⟨hle, ?_, ?_⟩
          · rw [← h1]
            unfold maskHigh
            exact lt_of_le_of_lt (Nat.div_mul_le_self _ _) hn0
          · rw [← h1]
            unfold maskHigh
            exact Nat.mul_mod_left _ _
        | v6 n0 =>
          simp only [maskIP, Option.some.injEq, Prod.mk.injEq] at h
          exact absurd h.1 (by simp)
    · exact absurd h (by simp)
  · exact absurd h (by simp)

theorem dropBroadcast_nil (isV4 : Bool) (bits net p : Nat) :
    dropBroadcast isV4 bits net p [] = [] := rfl

theorem dropBroadcast_of_getLast {isV4 : Bool} {bits net p : Nat}
    {ips : List Nat} {x : Nat} (h : ips.getLast? = some x) :
    dropBroadcast isV4 bits net p ips =
      if isBroadcastN isV4 bits p net x then ips.dropLast else ips := by
  unfold dropBroadcast
  rw [h]

theorem parseCIDRCore_eq {net p : Nat} (hp : 1 ≤ p) (hple : p ≤ 32) :
    parseCIDRCore true 32 net p =
      rangeEnum (if net = 0 then 1 else net)
        (if p < 32 then net + 2 ^ (32 - p) - 2 else net) := by
  have hsz : 1 ≤ 2 ^ (32 - p) := Nat.one_le_two_pow
  have hle : net ≤ net + 2 ^ (32 - p) - 1 := by omega
  unfold parseCIDRCore dropEdges
  rw [cidrEnum_eq_rangeEnum, rangeEnum_head hle]
  by_cases hp32 : p < 32
  · have hsz2 : 2 ≤ 2 ^ (32 - p) := by
      calc 2 = 2 ^ 1 := rfl
        _ ≤ 2 ^ (32 - p) := Nat.pow_le_pow_right (by omega) (by omega)
    have hbc : isBroadcastN true 32 p net (net + 2 ^ (32 - p) - 1) = true := by
      unfold isBroadcastN
      rw [if_neg (by simp), if_neg (by omega)]
      simp
    by_cases hnet : net = 0
    · subst hnet
      rw [if_pos rfl, rangeEnum_cons hle, List.tail_cons]
      have hle2 : (1 : Nat) ≤ 0 + 2 ^ (32 - p) - 1 := by omega
      rw [dropBroadcast_of_getLast (rangeEnum_getLast hle2), if_pos hbc,
        rangeEnum_dropLast hle2 (by omega)]
      rw [if_pos rfl, if_pos hp32]
      refine congrArg _ (by omega)
    · rw [if_neg (by simp [hnet]),
        dropBroadcast_of_getLast (rangeEnum_getLast hle), if_pos hbc,
        rangeEnum_dropLast hle (by omega)]
      rw [if_neg hnet, if_pos hp32]
      refine congrArg _ (by omega)
  · have hp32' : p = 32 := by omega
    subst hp32'
    have hszeq : 2 ^ (32 - 32) = 1 := by norm_num
    rw [hszeq] at hle ⊢
    have hnn : net + 1 - 1 = net := by omega
    rw [hnn] at hle ⊢
    by_cases hnet : net = 0
    · subst hnet
      rw [if_pos rfl, rangeEnum_cons hle, rangeEnum_empty (by omega), List.tail_cons,
        dropBroadcast_nil]
      rw [if_pos rfl, if_neg (by omega)]
      exact (rangeEnum_empty (by omega)).symm
    · rw [if_neg (by simp [hnet]),
        dropBroadcast_of_getLast (rangeEnum_getLast hle)]
      have hbc : isBroadcastN true 32 32 net net = false := by
        unfold isBroadcastN
        rw [if_neg (by simp), if_pos rfl]
      rw [hbc]
      simp only [Bool.false_eq_true, if_false]
      rw [if_neg hnet, if_neg (by omega)]

/-- The CIDR path of `ParseIPRange` in closed form, for 4-byte networks
with prefix at least 1: the ascending block enumeration, minus the
leading address exactly when it is 0.0.0.0, minus the trailing
(broadcast) address exactly when the prefix is shorter than 32. -/
theorem parseIPRange_cidr_v4 {s : String} {t : List Char} {net p : Nat}
    (ht : trimChars s.data = t) (hslash : t.any (fun c => c == '/') = true)
    (hcidr : goParseCIDR t = some (.v4 net, p)) (hp : 1 ≤ p) :
    ParseIPRange s =
      some (.ok ((rangeEnum (if net = 0 then 1 else net)
        (if p < 32 then net + 2 ^ (32 - p) - 2 else net)).map IPAddr.v4)) := by
  obtain ⟨hple, _, _⟩ := goParseCIDR_v4_inv hcidr
  unfold ParseIPRange parseTrimmed
  rw [ht, hslash, if_pos rfl]
  unfold parseCIDR
  simp only [hcidr]
  rw [if_neg (show ¬ p = 0 by omega), parseCIDRCore_eq hp hple]

/-- C1 (amended): for every IPv4 CIDR spec with prefix length at least 1
(at /0 the enumeration loop never returns), `ParseIPRange` enumerates
the block's addresses in ascending numeric order, removes the leading
address only when it is 0.0.0.0, and removes the trailing broadcast
address exactly when the prefix length is less than 32 (so a /24 of a
nonzero network yields 255 addresses including the network address, a
/30 yields 3, a /31 yields 1, a nonzero /32 yields 1). -/
theorem cidr_expansion_spec {s : String} {t : List Char} {net p : Nat}
    (ht : trimChars s.data = t) (hslash : t.any (fun c => c == '/') = true)
    (hcidr : goParseCIDR t = some (.v4 net, p)) (hp : 1 ≤ p) :
    ∃ l : List Nat, ParseIPRange s = some (.ok (l.map IPAddr.v4)) ∧
      l.Pairwise (· < ·) ∧
      (∀ x, x ∈ l ↔ net ≤ x ∧ x < net + 2 ^ (32 - p) ∧ x ≠ 0 ∧
        (p < 32 → x ≠ net + 2 ^ (32 - p) - 1)) ∧
      l.length = 2 ^ (32 - p) - (if net = 0 then 1 else 0) -
        (if p < 32 then 1 else 0) := by
  obtain ⟨hple, hnetlt, hmask⟩ := goParseCIDR_v4_inv hcidr
  refine ⟨_, parseIPRange_cidr_v4 ht hslash hcidr hp, rangeEnum_pairwise _ _, ?_, ?_⟩
  · intro x
    rw [rangeEnum_mem]
    by_cases hp32 : p < 32
    · have hsz2 : 2 ≤ 2 ^ (32 - p) := by
        calc 2 = 2 ^ 1 := rfl
          _ ≤ 2 ^ (32 - p) := Nat.pow_le_pow_right (by omega) (by omega)
      by_cases hnet : net = 0
      · subst hnet
        rw [if_pos rfl, if_pos hp32]
        omega
      · rw [if_neg hnet, if_pos hp32]
        omega
    · have hszeq : 2 ^ (32 - p) = 1 := by
        have hpe : p = 32 := by omega
        subst hpe
        norm_num
      by_cases hnet : net = 0
      · subst hnet
        rw [if_pos rfl, if_neg hp32, hszeq]
        omega
      · rw [if_neg hnet, if_neg hp32, hszeq]
        omega
  · rw [rangeEnum_length]
    by_cases hp32 : p < 32
    · have hsz2 : 2 ≤ 2 ^ (32 - p) := by
        calc 2 = 2 ^ 1 := rfl
          _ ≤ 2 ^ (32 - p) := Nat.pow_le_pow_right (by omega) (by omega)
      split_ifs <;> omega
    · have hszeq : 2 ^ (32 - p) = 1 := by
        have hpe : p = 32 := by omega
        subst hpe
        norm_num
      split_ifs <;> omega

/-- Witness for `cidr_expansion_spec` at the concrete spec
`10.0.0.0/30` (10.0.0.0 is value 167772160). -/
theorem cidr_expansion_spec_witness :
    (trimChars "10.0.0.0/30".data = "10.0.0.0/30".data ∧
      ("10.0.0.0/30".data.any (fun c => c == '/')) = true ∧
      goParseCIDR "10.0.0.0/30".data = some (.v4 167772160, 30) ∧ 1 ≤ 30) ∧
    (∃ l : List Nat, ParseIPRange "10.0.0.0/30" = some (.ok (l.map IPAddr.v4)) ∧
      l.Pairwise (· < ·) ∧
      (∀ x, x ∈ l ↔ 167772160 ≤ x ∧ x < 167772160 + 2 ^ (32 - 30) ∧ x ≠ 0 ∧
        (30 < 32 → x ≠ 167772160 + 2 ^ (32 - 30) - 1)) ∧
      l.length = 2 ^ (32 - 30) - (if 167772160 = 0 then 1 else 0) -
        (if 30 < 32 then 1 else 0)) :=
  ⟨⟨by decide, by decide, by decide, by decide⟩,
    @cidr_expansion_spec "10.0.0.0/30" ("10.0.0.0/30".data) 167772160 30
      (by decide) (by decide) (by decide) (by decide)⟩

set_option maxRecDepth 1000000 in
/-- Counterexample to C1 as stated: `192.168.1.0/24` expands to 255
addresses, not 254, and the network address 192.168.1.0 (value
3232235776) is included, not excluded; only the broadcast 192.168.1.255
(value 3232236031) is dropped. -/
theorem cidr_24_yields_255_with_network :
    (okList (ParseIPRange "192.168.1.0/24")).length = 255 ∧
    IPAddr.v4 3232235776 ∈ okList (ParseIPRange "192.168.1.0/24") ∧
    IPAddr.v4 3232236031 ∉ okList (ParseIPRange "192.168.1.0/24") := by
  refine ⟨by decide, by decide, by decide⟩

/-- C10: in CIDR expansion the leading address of the enumerated block
is removed only when it is 0.0.0.0 — for any other network the network
address itself is included — while the trailing broadcast address is
removed for every prefix length strictly below 32, including /31.
(Stated for prefixes at least 1; at /0 the enumeration loop of the
source never returns, see `cidrLoop_none_zero`.) -/
theorem cidr_edge_trim_policy {s : String} {t : List Char} {net p : Nat}
    (ht : trimChars s.data = t) (hslash : t.any (fun c => c == '/') = true)
    (hcidr : goParseCIDR t = some (.v4 net, p)) (hp : 1 ≤ p) :
    (net ≠ 0 → IPAddr.v4 net ∈ okList (ParseIPRange s)) ∧
    (net = 0 → IPAddr.v4 0 ∉ okList (ParseIPRange s)) ∧
    (p < 32 → IPAddr.v4 (net + 2 ^ (32 - p) - 1) ∉ okList (ParseIPRange s)) ∧
    (p = 31 → (okList (ParseIPRange s)).length = if net = 0 then 0 else 1) := by
  obtain ⟨hple, hnetlt, hmask⟩ := goParseCIDR_v4_inv hcidr
  have hx := parseIPRange_cidr_v4 ht hslash hcidr hp
  have hok : okList (ParseIPRange s) =
      (rangeEnum (if net = 0 then 1 else net)
        (if p < 32 then net + 2 ^ (32 - p) - 2 else net)).map IPAddr.v4 := by
    rw [hx]
    rfl
  have hsz1 : 1 ≤ 2 ^ (32 - p) := Nat.one_le_two_pow
  have hmem : ∀ x : Nat, IPAddr.v4 x ∈ okList (ParseIPRange s) ↔
      x ∈ rangeEnum (if net = 0 then 1 else net)
        (if p < 32 then net + 2 ^ (32 - p) - 2 else net) := by
    intro x
    rw [hok, List.mem_map]
    constructor
    · rintro ⟨y, hy, hxy⟩
      cases hxy
      exact hy
    · intro hxmem
      exact ⟨x, hxmem, rfl⟩
  refine ⟨?_, ?_, ?_, ?_⟩
  · intro hnet
    rw [hmem, rangeEnum_mem]
    by_cases hp32 : p < 32
    · have hsz2 : 2 ≤ 2 ^ (32 - p) := by
        calc 2 = 2 ^ 1 := rfl
          _ ≤ 2 ^ (32 - p) := Nat.pow_le_pow_right (by omega) (by omega)
      split_ifs <;> omega
    · have hszeq : 2 ^ (32 - p) = 1 := by
        have hpe : p = 32 := by omega
        subst hpe
        norm_num
      split_ifs <;> omega
  · intro hnet
    rw [hmem, rangeEnum_mem]
    split_ifs <;> omega
  · intro hp32
    rw [hmem, rangeEnum_mem]
    have hsz2 : 2 ≤ 2 ^ (32 - p) := by
      calc 2 = 2 ^ 1 := rfl
        _ ≤ 2 ^ (32 - p) := Nat.pow_le_pow_right (by omega) (by omega)
    split_ifs <;> omega
  · intro hp31
    subst hp31
    rw [hok, List.length_map, rangeEnum_length]
    have hszeq : 2 ^ (32 - 31) = 2 := by norm_num
    rw [hszeq] at hmask ⊢
    rw [if_pos (by norm_num : (31 : Nat) < 32)]
    by_cases hnet : net = 0
    · subst hnet
      norm_num
    · simp only [if_neg hnet]
      omega

/-- Witness for `cidr_edge_trim_policy` at the concrete spec
`10.0.0.0/31`. -/
theorem cidr_edge_trim_policy_witness :
    (trimChars "10.0.0.0/31".data = "10.0.0.0/31".data ∧
      ("10.0.0.0/31".data.any (fun c => c == '/')) = true ∧
      goParseCIDR "10.0.0.0/31".data = some (.v4 167772160, 31) ∧ 1 ≤ 31) ∧
    ((167772160 ≠ 0 → IPAddr.v4 167772160 ∈ okList (ParseIPRange "10.0.0.0/31")) ∧
     (167772160 = 0 → IPAddr.v4 0 ∉ okList (ParseIPRange "10.0.0.0/31")) ∧
     (31 < 32 → IPAddr.v4 (167772160 + 2 ^ (32 - 31) - 1) ∉
        okList (ParseIPRange "10.0.0.0/31")) ∧
     (31 = 31 → (okList (ParseIPRange "10.0.0.0/31")).length =
        if 167772160 = 0 then 0 else 1)) :=
  ⟨⟨by decide, by decide, by decide, by decide⟩,
    @cidr_edge_trim_policy "10.0.0.0/31" ("10.0.0.0/31".data) 167772160 31
      (by decide) (by decide) (by decide) (by decide)⟩

/-- Dispatch helper: a trimmed spec with no slash and a dash takes the
range path. -/
theorem parseIPRange_range_path {s : String} {t : List Char}
    (ht : trimChars s.data = t) (hslash : t.any (fun c => c == '/') = false)
    (hdash : t.any (fun c => c == '-') = true) :
    ParseIPRange s = parseRange t := by
  unfold ParseIPRange parseTrimmed
  rw [ht, hslash, hdash, if_neg (by simp), if_pos rfl]

/-- Dispatch helper: a trimmed spec with neither slash nor dash takes
the single-address path, and a parseable address yields itself. -/
theorem parseIPRange_single {s : String} {t : List Char} {ip : IPAddr}
    (ht : trimChars s.data = t) (hslash : t.any (fun c => c == '/') = false)
    (hdash : t.any (fun c => c == '-') = false)
    (hip : goParseIP t = some ip) :
    ParseIPRange s = some (.ok [ip]) := by
  unfold ParseIPRange parseTrimmed
  rw [ht, hslash, hdash, if_neg (by simp), if_neg (by simp)]
  simp only [hip]

/-- C4: evaluation of the code at the failing input.  The range walk
`for i := startInt; i <= endInt; i++` is a `uint32` loop; when
`endInt` is 255.255.255.255 (the maximum `uint32`), `i <= endInt` is
true for every `uint32` value and the increment wraps to 0, so the loop
never exits — the spec's requirement that the walk terminate without
overflow is violated.  The closed-form embedding accordingly returns
`none` (= never returns) on `0.0.0.0-255.255.255.255`, and the literal
fuel-indexed loop returns nothing for any amount of fuel. -/
theorem range_walk_overflow_diverges :
    ParseIPRange "0.0.0.0-255.255.255.255" = none ∧
    RangeLoopDiverges (2 ^ 32 - 1) 0 :=
  ⟨by decide, fun fuel acc => rangeLoop_none_max fuel 0 acc (by norm_num)⟩

/-- C5 (amended): on the inclusive-range path, an unparseable endpoint
fails with the invalid-addresses error; a start whose 32-bit value
exceeds the end fails with the order error; otherwise, provided the end
is below 255.255.255.255, the result is exactly the addresses from
start to end inclusive in ascending numeric order (so `A-A` yields one
address); when the end is 255.255.255.255 the walk never returns
(`range_max_end_never_returns`, `rangeLoop_none_max`). -/
theorem range_expansion_spec {s : String} {t a b : List Char}
    (ht : trimChars s.data = t) (hslash : t.any (fun c => c == '/') = false)
    (hdash : t.any (fun c => c == '-') = true)
    (hsplit : splitChar '-' t = [a, b]) :
    ((goParseIP (trimChars a) = none ∨ goParseIP (trimChars b) = none) →
      ParseIPRange s = some (.error (.invalidRange (String.mk t)))) ∧
    (∀ x y : Nat, goParseIP (trimChars a) = some (.v4 x) →
      goParseIP (trimChars b) = some (.v4 y) →
      ((x > y → ParseIPRange s = some (.error .rangeOrder)) ∧
       (x ≤ y → y < 2 ^ 32 - 1 →
         ParseIPRange s = some (.ok ((rangeEnum x y).map IPAddr.v4)) ∧
         (rangeEnum x y).length = y + 1 - x ∧
         (rangeEnum x y).Pairwise (· < ·) ∧
         (∀ z, z ∈ rangeEnum x y ↔ x ≤ z ∧ z ≤ y)))) := by
  have hpath : ParseIPRange s = parseRange t :=
    parseIPRange_range_path ht hslash hdash
  constructor
  · intro hnone
    rw [hpath]
    unfold parseRange
    rw [hsplit]
    rcases hnone with hna | hnb
    · simp only [hna]
    · cases hA : goParseIP (trimChars a) with
      | none => simp only [hA]
      | some ipa => simp only [hA, hnb]
  · intro x y hX hY
    constructor
    · intro hgt
      rw [hpath]
      unfold parseRange
      rw [hsplit]
      simp only [hX, hY, to4]
      rw [if_pos hgt]
    · intro hle hmax
      refine ⟨?_, rangeEnum_length _ _, rangeEnum_pairwise _ _,
        fun z => rangeEnum_mem⟩
      rw [hpath]
      unfold parseRange
      rw [hsplit]
      simp only [hX, hY, to4]
      rw [if_neg (by omega), if_neg (by omega)]

/-- Witness for `range_expansion_spec` at the concrete spec
`192.168.1.1-192.168.1.5` (values 3232235777 to 3232235781, five
addresses). -/
theorem range_expansion_spec_witness :
    (trimChars "192.168.1.1-192.168.1.5".data = "192.168.1.1-192.168.1.5".data ∧
      ("192.168.1.1-192.168.1.5".data.any (fun c => c == '/')) = false ∧
      ("192.168.1.1-192.168.1.5".data.any (fun c => c == '-')) = true ∧
      splitChar '-' "192.168.1.1-192.168.1.5".data =
        ["192.168.1.1".data, "192.168.1.5".data] ∧
      goParseIP "192.168.1.1".data = some (.v4 3232235777) ∧
      goParseIP "192.168.1.5".data = some (.v4 3232235781) ∧
      3232235777 ≤ 3232235781 ∧ 3232235781 < 2 ^ 32 - 1) ∧
    (ParseIPRange "192.168.1.1-192.168.1.5" =
        some (.ok ((rangeEnum 3232235777 3232235781).map IPAddr.v4)) ∧
      (rangeEnum 3232235777 3232235781).length = 3232235781 + 1 - 3232235777 ∧
      (rangeEnum 3232235777 3232235781).Pairwise (· < ·) ∧
      (∀ z, z ∈ rangeEnum 3232235777 3232235781 ↔
        3232235777 ≤ z ∧ z ≤ 3232235781)) :=
  ⟨⟨by decide, by decide, by decide, by decide, by decide, by decide,
      by decide, by decide⟩,
    ((@range_expansion_spec "192.168.1.1-192.168.1.5"
        ("192.168.1.1-192.168.1.5".data) ("192.168.1.1".data)
        ("192.168.1.5".data) (by decide) (by decide) (by decide)
        (by decide)).2 3232235777 3232235781 (by decide) (by decide)).2
      (by decide) (by decide)⟩

/-- Counterexample to C5 as stated: the range
`255.255.255.255-255.255.255.255` has equal, parseable endpoints, so
the claim promises exactly one address; instead the `uint32` walk never
returns (wrap at the maximum address), modelled as `none`. -/
theorem range_max_end_never_returns :
    ParseIPRange "255.255.255.255-255.255.255.255" = none ∧
    RangeLoopDiverges (2 ^ 32 - 1) (2 ^ 32 - 1) :=
  ⟨by decide, fun fuel acc => rangeLoop_none_max fuel _ acc (by norm_num)⟩

/-- C7 (amended): the single-address path of `ParseIPRange` accepts
any address `net.ParseIP` accepts, of either family; the inclusive-range
path requires the 4-byte family of both endpoints and fails with the
only-IPv4 error on a 16-byte one; the CIDR path, however, performs no
family check at all: a 16-byte-family CIDR is accepted and enumerated
(only the broadcast trim is specific to the 4-byte family),
contradicting the claim that it fails with `UnsupportedFamily`. -/
theorem family_handling_spec :
    (∀ (s : String) (t : List Char) (ip : IPAddr), trimChars s.data = t →
      t.any (fun c => c == '/') = false → t.any (fun c => c == '-') = false →
      goParseIP t = some ip → ParseIPRange s = some (.ok [ip])) ∧
    (∀ (s : String) (t a b : List Char) (ipa ipb : IPAddr),
      trimChars s.data = t → t.any (fun c => c == '/') = false →
      t.any (fun c => c == '-') = true → splitChar '-' t = [a, b] →
      goParseIP (trimChars a) = some ipa → goParseIP (trimChars b) = some ipb →
      (to4 ipa = none ∨ to4 ipb = none) →
      ParseIPRange s = some (.error .onlyIPv4)) ∧
    (∀ (s : String) (t : List Char) (net p : Nat), trimChars s.data = t →
      t.any (fun c => c == '/') = true →
      goParseCIDR t = some (.v6 net, p) → 1 ≤ p →
      ParseIPRange s =
        some (.ok ((parseCIDRCore false 128 net p).map IPAddr.v6)) ∧
      isOk (ParseIPRange s) = true) := by
  refine ⟨?_, ?_, ?_⟩
  · intro s t ip ht hslash hdash hip
    exact parseIPRange_single ht hslash hdash hip
  · intro s t a b ipa ipb ht hslash hdash hsplit hA hB hfam
    rw [parseIPRange_range_path ht hslash hdash]
    unfold parseRange
    rw [hsplit]
    simp only [hA, hB]
    rcases hfam with h4 | h4
    · cases ipa with
      | v4 n => exact absurd h4 (by simp [to4])
      | v6 n => simp only [to4]
    · cases ipb with
      | v4 n => exact absurd h4 (by simp [to4])
      | v6 n =>
        cases ha4 : to4 ipa with
        | none => simp only [to4]
        | some ya => simp only [ha4, to4]
  · intro s t net p ht hslash hcidr hp
    have heq : ParseIPRange s =
        some (.ok ((parseCIDRCore false 128 net p).map IPAddr.v6)) := by
      unfold ParseIPRange parseTrimmed
      rw [ht, hslash, if_pos rfl]
      unfold parseCIDR
      simp only [hcidr]
      rw [if_neg (show ¬ p = 0 by omega)]
    refine ⟨heq, ?_⟩
    rw [heq]
    rfl

/-- Witness for `family_handling_spec`: the single path accepts the
IPv6 address `::1` and the IPv4 address `10.0.0.7`, and the range path
rejects `::1-::2` with the only-IPv4 error. -/
theorem family_handling_spec_witness :
    ParseIPRange "::1" = some (.ok [.v6 1]) ∧
    ParseIPRange "10.0.0.7" = some (.ok [.v4 167772167]) ∧
    ParseIPRange "::1-::2" = some (.error .onlyIPv4) :=
  ⟨family_handling_spec.1 "::1" ("::1".data) (.v6 1) (by decide) (by decide)
      (by decide) (by decide),
    family_handling_spec.1 "10.0.0.7" ("10.0.0.7".data) (.v4 167772167)
      (by decide) (by decide) (by decide) (by decide),
    family_handling_spec.2.1 "::1-::2" ("::1-::2".data) ("::1".data)
      ("::2".data) (.v6 1) (.v6 2) (by decide) (by decide) (by decide)
      (by decide) (by decide) (by decide) (Or.inl (by decide))⟩

/-- Counterexample to C7 as stated: the IPv6 CIDR `::1/128` does not
fail with an unsupported-family error — the CIDR path accepts it and
returns the one-address block `[::1]`. -/
theorem cidr_v6_accepted :
    ParseIPRange "::1/128" = some (.ok [IPAddr.v6 1]) := by
  decide

/-! ## Helper lemmas: deduplication in `ParseMultipleRanges` -/

theorem insertIP_mem (acc : List IPAddr) (ip : IPAddr) (str : String) :
    str ∈ GetIPs (insertIP acc ip) ↔ str ∈ GetIPs acc ∨ str = ipString ip := by
  unfold insertIP GetIPs
  by_cases hc : (acc.map ipString).contains (ipString ip) = true
  · rw [if_pos hc]
    have hin : ipString ip ∈ acc.map ipString := by simpa using hc
    constructor
    · intro h
      exact Or.inl h
    · rintro (h | rfl)
      · exact h
      · exact hin
  · rw [if_neg hc]
    rw [List.map_append, List.map_singleton, List.mem_append,
      List.mem_singleton]

theorem dedupIPs_mem (l : List IPAddr) : ∀ (acc : List IPAddr) (str : String),
    str ∈ GetIPs (dedupIPs acc l) ↔ str ∈ GetIPs acc ∨ str ∈ l.map ipString := by
  induction l with
  | nil =>
    intro acc str
    simp [dedupIPs]
  | cons ip rest ih =>
    intro acc str
    unfold dedupIPs at ih ⊢
    rw [List.foldl_cons, ih, insertIP_mem, List.map_cons, List.mem_cons]
    tauto

theorem dedupIPs_nodup (l : List IPAddr) : ∀ acc : List IPAddr,
    (GetIPs acc).Nodup → (GetIPs (dedupIPs acc l)).Nodup := by
  induction l with
  | nil =>
    intro acc h
    exact h
  | cons ip rest ih =>
    intro acc h
    unfold dedupIPs at ih ⊢
    rw [List.foldl_cons]
    refine ih _ ?_
    unfold insertIP
    by_cases hc : (acc.map ipString).contains (ipString ip) = true
    · rw [if_pos hc]
      exact h
    · rw [if_neg hc]
      have hnin : ipString ip ∉ acc.map ipString := by
        intro hmem
        exact hc (by simpa using hmem)
      unfold GetIPs at h ⊢
      rw [List.map_append, List.map_singleton]
      refine (List.perm_append_singleton _ _).symm.nodup ?_
      rw [List.nodup_cons]
      exact ⟨hnin, h⟩

theorem pmrAux_ok (specs : List String) : ∀ acc : List IPAddr,
    (∀ x ∈ specs, isOk (ParseIPRange x) = true) →
    pmrAux specs acc = some (.ok
      (((specs.map (fun x => okList (ParseIPRange x))).flatten).foldl insertIP acc)) := by
  induction specs with
  | nil =>
    intro acc _
    rfl
  | cons sp rest ih =>
    intro acc h
    have hs : isOk (ParseIPRange sp) = true := h _ (by simp)
    cases hps : ParseIPRange sp with
    | none =>
      rw [hps] at hs
      exact absurd hs (by simp [isOk])
    | some r =>
      cases r with
      | error e =>
        rw [hps] at hs
        exact absurd hs (by simp [isOk])
      | ok l =>
        unfold pmrAux
        simp only [hps]
        rw [ih _ (fun x hx => h x (by simp [hx]))]
        rw [List.map_cons, List.flatten_cons, List.foldl_append]
        rw [hps]
        rfl

theorem pmrAux_err (pre : List String) : ∀ (acc : List IPAddr) (sp : String)
    (rest : List String) (e : Err),
    (∀ x ∈ pre, isOk (ParseIPRange x) = true) →
    ParseIPRange sp = some (.error e) →
    pmrAux (pre ++ sp :: rest) acc = some (.error (.wrap sp e)) := by
  induction pre with
  | nil =>
    intro acc sp rest e _ hsp
    rw [List.nil_append]
    unfold pmrAux
    simp only [hsp]
  | cons q qs ih =>
    intro acc sp rest e h hsp
    have hq : isOk (ParseIPRange q) = true := h _ (by simp)
    cases hpq : ParseIPRange q with
    | none =>
      rw [hpq] at hq
      exact absurd hq (by simp [isOk])
    | some r =>
      cases r with
      | error e2 =>
        rw [hpq] at hq
        exact absurd hq (by simp [isOk])
      | ok l =>
        rw [List.cons_append]
        unfold pmrAux
        simp only [hpq]
        exact ih _ sp rest e (fun x hx => h x (by simp [hx])) hsp

/-- C6: `ParseMultipleRanges` parses each spec in input order and
propagates the first error, wrapped with the text of the offending
spec; when every spec parses, it returns the concatenation of the
per-spec results with duplicates (by string equality of the rendered
address) removed at first occurrence, preserving first-seen order:
the rendered result is duplicate-free, and a rendered address appears
in it exactly when some spec produced it. -/
theorem expand_many_spec :
    (∀ (pre : List String) (sp : String) (rest : List String) (e : Err),
      (∀ x ∈ pre, isOk (ParseIPRange x) = true) →
      ParseIPRange sp = some (.error e) →
      ParseMultipleRanges (pre ++ sp :: rest) = some (.error (.wrap sp e))) ∧
    (∀ specs : List String,
      (∀ x ∈ specs, isOk (ParseIPRange x) = true) →
      ParseMultipleRanges specs = some (.ok
        (dedupIPs [] ((specs.map (fun x => okList (ParseIPRange x))).flatten))) ∧
      (GetIPs (dedupIPs []
        ((specs.map (fun x => okList (ParseIPRange x))).flatten))).Nodup ∧
      (∀ str, str ∈ GetIPs (dedupIPs []
          ((specs.map (fun x => okList (ParseIPRange x))).flatten)) ↔
        str ∈ ((specs.map (fun x => okList (ParseIPRange x))).flatten).map
          ipString)) := by
  constructor
  · intro pre sp rest e hpre hsp
    exact pmrAux_err pre [] sp rest e hpre hsp
  · intro specs h
    refine ⟨pmrAux_ok specs [] h, dedupIPs_nodup _ [] (by simp [GetIPs]), ?_⟩
    intro str
    rw [dedupIPs_mem]
    simp [GetIPs]

/-- Witness for `expand_many_spec` at the concrete spec list
`["192.168.1.1", "192.168.1.1", "192.168.1.2"]`: two addresses remain,
in first-seen order. -/
theorem expand_many_spec_witness :
    (∀ x ∈ ["192.168.1.1", "192.168.1.1", "192.168.1.2"],
      isOk (ParseIPRange x) = true) ∧
    ParseMultipleRanges ["192.168.1.1", "192.168.1.1", "192.168.1.2"] =
      some (.ok (dedupIPs []
        (((["192.168.1.1", "192.168.1.1", "192.168.1.2"] : List String).map
          (fun x => okList (ParseIPRange x))).flatten))) ∧
    GetIPs (okList (ParseMultipleRanges
        ["192.168.1.1", "192.168.1.1", "192.168.1.2"])) =
      ["192.168.1.1", "192.168.1.2"] :=
  ⟨by decide, (expand_many_spec.2 _ (by decide)).1, by decide⟩

/-! ## Helper lemmas: the dispatcher -/

theorem callR_excl (e : Except String Payload) :
    ((callR e).1.isSome ∧ (callR e).2.1 = none) ∨
    ((callR e).1 = none ∧ (callR e).2.1.isSome) := by
  cases e <;> simp [callR]

theorem actR_excl (e : Except String Unit) (m : String) :
    ((actR e m).1.isSome ∧ (actR e m).2.1 = none) ∨
    ((actR e m).1 = none ∧ (actR e m).2.1.isSome) := by
  cases e <;> simp [actR]

theorem poolBranch_excl {api : MinerAPI} {call : Nat → Except String Unit}
    {okMsg reqMsg : String} {ps : Params}
    {out : Option Payload × Option String × Nat}
    (h : poolBranch api call okMsg reqMsg ps = some out) :
    (out.1.isSome ∧ out.2.1 = none) ∨ (out.1 = none ∧ out.2.1.isSome) := by
  unfold poolBranch at h
  rcases hpg : pget ps "pool" with _ | pv
  · simp only [hpg] at h
    injection h with h
    subst h
    right
    simp
  · simp only [hpg] at h
    cases pv with
    | int i =>
      rcases hpool : api.pools with e | pools
      · simp only [hpool] at h
        injection h with h
        subst h
        right
        simp
      · simp only [hpool] at h
        split_ifs at h with h1 h2
        · rcases hc : call (pools.getD i.toNat 0) with e2 | u
          · simp only [hc] at h
            injection h with h
            subst h
            right
            simp
          · simp only [hc] at h
            injection h with h
            subst h
            left
            simp
        · injection h with h
          subst h
          right
          simp
    | str v =>
      injection h with h
      subst h
      right
      simp
    | other =>
      injection h with h
      subst h
      right
      simp

theorem runCase_excl {api : MinerAPI} {j : Job}
    {out : Option Payload × Option String × Nat}
    (h : runCase api j = some out) :
    (out.1.isSome ∧ out.2.1 = none) ∨ (out.1 = none ∧ out.2.1.isSome) := by
  unfold runCase at h
  by_cases h1 : j.command = "summary"
  · rw [if_pos h1] at h; injection h with h; subst h; exact callR_excl _
  rw [if_neg h1] at h
  by_cases h2 : j.command = "devs"
  · rw [if_pos h2] at h; injection h with h; subst h; exact callR_excl _
  rw [if_neg h2] at h
  by_cases h3 : j.command = "pools"
  · rw [if_pos h3] at h; injection h with h; subst h; exact callR_excl _
  rw [if_neg h3] at h
  by_cases h4 : j.command = "stats"
  · rw [if_pos h4] at h; injection h with h; subst h; exact callR_excl _
  rw [if_neg h4] at h
  by_cases h5 : j.command = "version"
  · rw [if_pos h5] at h; injection h with h; subst h; exact callR_excl _
  rw [if_neg h5] at h
  by_cases h6 : j.command = "switchpool"
  · rw [if_pos h6] at h; exact poolBranch_excl h
  rw [if_neg h6] at h
  by_cases h7 : j.command = "enablepool"
  · rw [if_pos h7] at h; exact poolBranch_excl h
  rw [if_neg h7] at h
  by_cases h8 : j.command = "disablepool"
  · rw [if_pos h8] at h; exact poolBranch_excl h
  rw [if_neg h8] at h
  by_cases h9 : j.command = "addpool"
  · rw [if_pos h9] at h
    split at h
    · injection h with h; subst h; exact actR_excl _ _
    · injection h with h; subst h; right; simp
  rw [if_neg h9] at h
  by_cases h10 : j.command = "removepool"
  · rw [if_pos h10] at h; exact poolBranch_excl h
  rw [if_neg h10] at h
  by_cases h11 : j.command = "restart"
  · rw [if_pos h11] at h; injection h with h; subst h; exact actR_excl _ _
  rw [if_neg h11] at h
  by_cases h12 : j.command = "quit"
  · rw [if_pos h12] at h; injection h with h; subst h; exact actR_excl _ _
  rw [if_neg h12] at h
  by_cases h13 : j.command = "custom"
  · rw [if_pos h13] at h
    split at h
    · injection h with h; subst h; exact callR_excl _
    · injection h with h; subst h; right; simp
  rw [if_neg h13] at h
  injection h with h
  subst h
  right
  simp

theorem executeJob_parts {net : Network} {clock : Clock} {j : Job}
    {r : Result × Nat} (h : executeJob net clock j = some r) :
    ∃ out, runCase (net j.ip j.port) j = some out ∧
      r.1 = ⟨j.ip, j.port, j.command,
        (if out.2.1 = none then out.1 else none), out.2.1, clock j⟩ ∧
      r.2 = out.2.2 := by
  unfold executeJob at h
  cases hrc : runCase (net j.ip j.port) j with
  | none =>
    rw [hrc] at h
    exact absurd h (by simp)
  | some out =>
    rw [hrc, Option.map_some'] at h
    injection h with h
    exact ⟨out, rfl, by rw [← h], by rw [← h]⟩

theorem processJob_shape {net : Network} {clock : Clock} {c : Bool} {j : Job}
    {r : Result × Nat} (hclock : clock j ≠ "")
    (h : processJob net clock c j = some r) :
    r.1.ip = j.ip ∧ r.1.port = j.port ∧ r.1.command = j.command ∧
    ((r.1.response.isSome ∧ r.1.error = none) ∨
      (r.1.response = none ∧ r.1.error.isSome)) ∧
    (r.1.duration ≠ "" ∨
      (r.1.duration = "" ∧ r.1.error = some "context cancelled")) := by
  unfold processJob at h
  split_ifs at h with hc
  · injection h with h
    subst h
    refine ⟨rfl, rfl, rfl, Or.inr ⟨rfl, by simp [cancelResult]⟩, Or.inr ⟨rfl, rfl⟩⟩
  · obtain ⟨out, hrc, hr1, _⟩ := executeJob_parts h
    have hx := runCase_excl hrc
    refine ⟨by rw [hr1], by rw [hr1], by rw [hr1], ?_, ?_⟩
    · rw [hr1]
      rcases hx with ⟨hs, he⟩ | ⟨hs, he⟩
      · left
        constructor
        · simpa [he] using hs
        · simpa using he
      · right
        constructor
        · simp [hs]
        · simpa using he
    · left
      rw [hr1]
      exact hclock

theorem runJobs_shape {net : Network} {clock : Clock} {cs : Nat → Bool} :
    ∀ (jobs : List Job) (i : Nat) (l : List (Result × Nat)),
    runJobs net clock cs jobs i = some l →
    l.map (fun x => x.1.ip) = jobs.map Job.ip ∧
    (∀ x ∈ l, ∃ j ∈ jobs, ∃ i2 : Nat, processJob net clock (cs i2) j = some x) := by
  intro jobs
  induction jobs with
  | nil =>
    intro i l h
    injection h with h
    subst h
    exact ⟨rfl, by simp⟩
  | cons j rest ih =>
    intro i l h
    unfold runJobs at h
    cases hp : processJob net clock (cs i) j with
    | none =>
      rw [hp] at h
      exact absurd h (by simp)
    | some r =>
      cases hr : runJobs net clock cs rest (i + 1) with
      | none =>
        simp only [hp, hr, Option.map_none'] at h
        exact absurd h (by simp)
      | some l2 =>
        simp only [hp, hr, Option.map_some'] at h
        injection h with h
        subst h
        obtain ⟨hmap, hmem⟩ := ih (i + 1) l2 hr
        constructor
        · rw [List.map_cons, List.map_cons, hmap]
          have hip : r.1.ip = j.ip := by
            unfold processJob at hp
            split_ifs at hp with hc
            · injection hp with hp
              subst hp
              rfl
            · obtain ⟨out, _, hr1, _⟩ := executeJob_parts hp
              rw [hr1]
          rw [hip]
        · intro x hx
          rcases List.mem_cons.mp hx with rfl | hx2
          · exact ⟨j, by simp, i, hp⟩
          · obtain ⟨j2, hj2, c2, hc2⟩ := hmem x hx2
            exact ⟨j2, by simp [hj2], c2, hc2⟩

theorem runJobs_cancelled (net : Network) (clock : Clock) (cs : Nat → Bool)
    (hcs : ∀ i, cs i = true) :
    ∀ (jobs : List Job) (i : Nat),
    runJobs net clock cs jobs i = some (jobs.map (fun j => (cancelResult j, 0))) := by
  intro jobs
  induction jobs with
  | nil => intro i; rfl
  | cons j rest ih =>
    intro i
    unfold runJobs
    have hpj : processJob net clock (cs i) j = some (cancelResult j, 0) := by
      unfold processJob
      rw [hcs i, if_pos rfl]
    simp only [hpj, ih (i + 1), Option.map_some']
    rfl

theorem mkJobs_mem {ips : List String} {port : Int} {cmd : String}
    {params : Params} {j : Job} (h : j ∈ mkJobs ips port cmd params) :
    j.ip ∈ ips ∧ j.port = port ∧ j.command = cmd ∧ j.params = params := by
  unfold mkJobs at h
  obtain ⟨ip, hip, rfl⟩ := List.mem_map.mp h
  exact ⟨hip, rfl, rfl, rfl⟩

theorem runCase_unknown {api : MinerAPI} {j : Job}
    (h : j.command ∉ GetAvailableCommands) :
    runCase api j = some (none, some ("unknown command: " ++ j.command), 0) := by
  simp only [GetAvailableCommands, List.mem_cons, List.mem_singleton,
    not_or] at h
  obtain ⟨h1, h2, h3, h4, h5, h6, h7, h8, h9, h10, h11, h12, h13, -⟩ := h
  unfold runCase
  rw [if_neg h1, if_neg h2, if_neg h3, if_neg h4, if_neg h5, if_neg h6,
    if_neg h7, if_neg h8, if_neg h9, if_neg h10, if_neg h11, if_neg h12,
    if_neg h13]

theorem executeJob_unknown {net : Network} {clock : Clock} {j : Job}
    (h : j.command ∉ GetAvailableCommands) :
    executeJob net clock j =
      some (⟨j.ip, j.port, j.command, none,
        some ("unknown command: " ++ j.command), clock j⟩, 0) := by
  unfold executeJob
  rw [runCase_unknown h, Option.map_some']
  simp

theorem runJobs_unknown_total {net : Network} {clock : Clock}
    {cs : Nat → Bool} {cmd : String} (hcmd : cmd ∉ GetAvailableCommands) :
    ∀ (jobs : List Job) (i : Nat), (∀ j ∈ jobs, j.command = cmd) →
    ∃ l, runJobs net clock cs jobs i = some l := by
  intro jobs
  induction jobs with
  | nil =>
    intro i _
    exact ⟨[], rfl⟩
  | cons j rest ih =>
    intro i hall
    obtain ⟨l2, hl2⟩ := ih (i + 1) (fun x hx => hall x (by simp [hx]))
    have hpj : ∃ r, processJob net clock (cs i) j = some r := by
      unfold processJob
      by_cases hc : cs i = true
      · rw [hc, if_pos rfl]
        exact ⟨_, rfl⟩
      · have hcf : cs i = false := by
          revert hc
          cases cs i <;> simp
        rw [hcf, if_neg (by simp)]
        rw [executeJob_unknown (by rw [hall j (by simp)]; exact hcmd)]
        exact ⟨_, rfl⟩
    obtain ⟨r, hr⟩ := hpj
    refine ⟨r :: l2, ?_⟩
    unfold runJobs
    simp only [hr, hl2, Option.map_some']

/-- Protocol-client test double for the concrete runs below: every call
fails with `unreachable`, except the pools listing, which reports
exactly one pool. -/
def onePoolAPI : MinerAPI :=
  ⟨.error "unreachable", .error "unreachable", .ok [0], .error "unreachable",
   .error "unreachable", fun _ => .error "unreachable",
   fun _ => .error "unreachable", fun _ => .error "unreachable",
   fun _ => .error "unreachable", fun _ _ _ => .error "unreachable",
   .error "unreachable", .error "unreachable", fun _ => .error "unreachable"⟩

/-- The network double: every host answers as `onePoolAPI`. -/
def cxNet : Network := fun _ _ => onePoolAPI

/-- A duration oracle: every execution renders as `1ms`. -/
def cxClock : Clock := fun _ => "1ms"

/-- A run whose context is already cancelled at every dequeue. -/
def allCancelled : Nat → Bool := fun _ => true

/-- A run whose context is never cancelled. -/
def noneCancelled : Nat → Bool := fun _ => false

/-- C2 (amended): provided no worker panics — the pool-indexing
commands panic on a negative user-supplied pool id when the pools call
succeeds with a nonempty list, crashing the run
(`run_switchpool_negative_pool_panics`) — every report of
`ExecuteCommand` has exactly one Outcome per input host: its length is
the number of hosts, each host appears in the Outcomes exactly as often
as in the input, an empty host list yields an empty report rather than
an error, and an unrecognized operation name yields a per-host
unknown-command error Outcome for every host instead of aborting the
run (for unknown operations a report always exists: no panic is
reachable). -/
theorem run_total_coverage (net : Network) (clock : Clock) (cs : Nat → Bool)
    (ips : List String) (port : Int) (cmd : String) (params : Params) :
    (∀ r, Reports net clock cs ips port cmd params r →
      r.length = ips.length ∧
      (∀ h : String, (r.map Result.ip).count h = ips.count h) ∧
      (ips = [] → r = []) ∧
      (cmd ∉ GetAvailableCommands → (∀ i, cs i = false) →
        ∀ o ∈ r, o.error = some ("unknown command: " ++ cmd))) ∧
    (cmd ∉ GetAvailableCommands →
      ∃ r, Reports net clock cs ips port cmd params r) := by
  constructor
  · rintro r ⟨l, hl, hperm⟩
    obtain ⟨hmap, hmem⟩ := runJobs_shape (mkJobs ips port cmd params) 0 l hl
    have hjips : (mkJobs ips port cmd params).map Job.ip = ips := by
      unfold mkJobs
      rw [List.map_map]
      have : (Job.ip ∘ fun ip => (⟨ip, port, cmd, params⟩ : Job)) = id := rfl
      rw [this, List.map_id]
    have hmap2 : l.map (fun x => x.1.ip) = ips := by rw [hmap, hjips]
    have hperm2 : (l.map (fun x => x.1.ip)).Perm (r.map Result.ip) := by
      have := hperm.map Result.ip
      rwa [List.map_map] at this
    refine ⟨?_, ?_, ?_, ?_⟩
    · have h1 := hperm.length_eq
      rw [List.length_map] at h1
      rw [← h1]
      have h2 := congrArg List.length hmap2
      rwa [List.length_map] at h2
    · intro h
      rw [← hperm2.count_eq, hmap2]
    · intro hips
      subst hips
      have : l = [] := by
        have h0 : runJobs net clock cs [] 0 = some [] := rfl
        rw [show mkJobs [] port cmd params = [] from rfl] at hl
        rw [h0] at hl
        injection hl with hl
        exact hl.symm
      subst this
      exact (List.Perm.nil_eq hperm).symm
    · intro hcmd hcs o ho
      have h2 : o ∈ l.map Prod.fst := hperm.mem_iff.mpr ho
      obtain ⟨x, hx, rfl⟩ := List.mem_map.mp h2
      obtain ⟨j, hj, i2, hpj⟩ := hmem x hx
      obtain ⟨-, -, hjcmd, -⟩ := mkJobs_mem hj
      rw [hcs i2] at hpj
      unfold processJob at hpj
      rw [if_neg (by simp)] at hpj
      rw [executeJob_unknown (by rw [hjcmd]; exact hcmd)] at hpj
      injection hpj with hpj
      rw [← hpj, hjcmd]
  · intro hcmd
    obtain ⟨l, hl⟩ := runJobs_unknown_total hcmd (mkJobs ips port cmd params) 0
      (fun j hj => (mkJobs_mem hj).2.2.1)
    exact ⟨l.map Prod.fst, l, hl, List.Perm.refl _⟩

/-- Witness for `run_total_coverage`: a two-host run of the
unrecognized operation `bogus` against the test double. -/
theorem run_total_coverage_witness :
    (Reports cxNet cxClock noneCancelled ["10.0.0.1", "10.0.0.2"] 4028 "bogus" []
      [⟨"10.0.0.1", 4028, "bogus", none, some "unknown command: bogus", "1ms"⟩,
       ⟨"10.0.0.2", 4028, "bogus", none, some "unknown command: bogus", "1ms"⟩] ∧
      "bogus" ∉ GetAvailableCommands ∧ (∀ i : Nat, noneCancelled i = false)) ∧
    ([⟨"10.0.0.1", 4028, "bogus", none, some "unknown command: bogus", "1ms"⟩,
      (⟨"10.0.0.2", 4028, "bogus", none, some "unknown command: bogus", "1ms"⟩ : Result)].length =
        (["10.0.0.1", "10.0.0.2"] : List String).length ∧
      (∃ r, Reports cxNet cxClock noneCancelled ["10.0.0.1", "10.0.0.2"] 4028
        "bogus" [] r)) := by
  have hrep : Reports cxNet cxClock noneCancelled ["10.0.0.1", "10.0.0.2"] 4028
      "bogus" []
      [⟨"10.0.0.1", 4028, "bogus", none, some "unknown command: bogus", "1ms"⟩,
       ⟨"10.0.0.2", 4028, "bogus", none, some "unknown command: bogus", "1ms"⟩] :=
    ⟨[(⟨"10.0.0.1", 4028, "bogus", none, some "unknown command: bogus", "1ms"⟩, 0),
      (⟨"10.0.0.2", 4028, "bogus", none, some "unknown command: bogus", "1ms"⟩, 0)],
      by decide, by decide⟩
  refine ⟨⟨hrep, by decide, fun i => rfl⟩, ?_, ?_⟩
  · exact ((run_total_coverage cxNet cxClock noneCancelled ["10.0.0.1", "10.0.0.2"]
      4028 "bogus" []).1 _ hrep).1
  · exact (run_total_coverage cxNet cxClock noneCancelled ["10.0.0.1", "10.0.0.2"]
      4028 "bogus" []).2 (by decide)

/-- Counterexample to C2 as stated: with operation `switchpool`, a
parameter bag carrying pool id -1, and a host whose pools call succeeds
with one pool, the worker evaluates `pools[-1]` — the Go bounds test
only checks `poolID < len(pools)` — and panics, crashing the process:
no report with one Outcome per host exists. -/
theorem run_switchpool_negative_pool_panics :
    runJobs cxNet cxClock noneCancelled
      (mkJobs ["10.0.0.1"] 4028 "switchpool" [("pool", PVal.int (-1))]) 0 =
        none ∧
    ¬ ∃ r, Reports cxNet cxClock noneCancelled ["10.0.0.1"] 4028 "switchpool"
      [("pool", PVal.int (-1))] r := by
  have h1 : runJobs cxNet cxClock noneCancelled
      (mkJobs ["10.0.0.1"] 4028 "switchpool" [("pool", PVal.int (-1))]) 0 =
        none := by decide
  refine ⟨h1, ?_⟩
  rintro ⟨r, l, hl, -⟩
  rw [h1] at hl
  exact absurd hl (by simp)

/-- C3: when the run-level context is already cancelled before any job
is taken, every job still yields exactly one Outcome (the report is
complete: one Outcome per submitted host), every Outcome carries the
`context cancelled` error and no payload, and no protocol call is
attempted anywhere in the run. -/
theorem run_cancelled_fast_fail {net : Network} {clock : Clock}
    {cs : Nat → Bool} {ips : List String} {port : Int} {cmd : String}
    {params : Params} {r : List Result} (hcs : ∀ i, cs i = true)
    (hrep : Reports net clock cs ips port cmd params r) :
    r.length = ips.length ∧
    (∀ o ∈ r, o.error = some "context cancelled" ∧ o.response = none ∧
      o.duration = "") ∧
    RunCalls net clock cs ips port cmd params = some 0 := by
  obtain ⟨l, hl, hperm⟩ := hrep
  rw [runJobs_cancelled net clock cs hcs _ 0] at hl
  injection hl with hl
  subst hl
  refine ⟨?_, ?_, ?_⟩
  · rw [← hperm.length_eq]
    simp [mkJobs]
  · intro o ho
    have homem : o ∈ ((mkJobs ips port cmd params).map
        (fun j => (cancelResult j, 0))).map Prod.fst := hperm.mem_iff.mpr ho
    rw [List.map_map] at homem
    obtain ⟨j, hj, rfl⟩ := List.mem_map.mp homem
    exact ⟨rfl, rfl, rfl⟩
  · unfold RunCalls
    rw [runJobs_cancelled net clock cs hcs _ 0, Option.map_some']
    have hz : (((mkJobs ips port cmd params).map
        (fun j => (cancelResult j, 0))).map Prod.snd).sum = 0 := by
      rw [List.map_map]
      have hcomp : (Prod.snd ∘ fun j : Job => (cancelResult j, (0 : Nat))) =
          fun _ => 0 := rfl
      rw [hcomp]
      simp
    rw [hz]

/-- Witness for `run_cancelled_fast_fail`: a two-host run with a
context cancelled from the start; both Outcomes carry the cancellation
error and zero protocol calls were made. -/
theorem run_cancelled_fast_fail_witness :
    ((∀ i : Nat, allCancelled i = true) ∧
      Reports cxNet cxClock allCancelled ["10.0.0.1", "10.0.0.2"] 4028
        "summary" []
        [⟨"10.0.0.1", 4028, "summary", none, some "context cancelled", ""⟩,
         ⟨"10.0.0.2", 4028, "summary", none, some "context cancelled", ""⟩]) ∧
    ([⟨"10.0.0.1", 4028, "summary", none, some "context cancelled", ""⟩,
      (⟨"10.0.0.2", 4028, "summary", none, some "context cancelled", ""⟩ : Result)].length =
        (["10.0.0.1", "10.0.0.2"] : List String).length ∧
      (∀ o ∈ [⟨"10.0.0.1", 4028, "summary", none, some "context cancelled", ""⟩,
        (⟨"10.0.0.2", 4028, "summary", none, some "context cancelled", ""⟩ : Result)],
        o.error = some "context cancelled" ∧ o.response = none ∧
          o.duration = "") ∧
      RunCalls cxNet cxClock allCancelled ["10.0.0.1", "10.0.0.2"] 4028
        "summary" [] = some 0) := by
  have hrep : Reports cxNet cxClock allCancelled ["10.0.0.1", "10.0.0.2"] 4028
      "summary" []
      [⟨"10.0.0.1", 4028, "summary", none, some "context cancelled", ""⟩,
       ⟨"10.0.0.2", 4028, "summary", none, some "context cancelled", ""⟩] :=
    ⟨[(⟨"10.0.0.1", 4028, "summary", none, some "context cancelled", ""⟩, 0),
      (⟨"10.0.0.2", 4028, "summary", none, some "context cancelled", ""⟩, 0)],
      by decide, by decide⟩
  exact ⟨⟨fun i => rfl, hrep⟩, run_cancelled_fast_fail (fun i => rfl) hrep⟩

/-- C8 (amended): every Outcome of a run carries its job's host, port
and operation name, and exactly one of a success payload or an error
(never both, never neither); Outcomes produced by executing the job
carry the elapsed duration (nonempty, as Go's `Duration.String` never
renders empty), while cancellation fast-fail Outcomes leave the
duration at its zero value `""` (`cancelled_outcome_empty_duration`). -/
theorem outcome_shape_spec {net : Network} {clock : Clock}
    {cs : Nat → Bool} {ips : List String} {port : Int} {cmd : String}
    {params : Params} {r : List Result} (hclock : ∀ j : Job, clock j ≠ "")
    (hrep : Reports net clock cs ips port cmd params r) :
    ∀ o ∈ r, o.command = cmd ∧ o.port = port ∧ o.ip ∈ ips ∧
      ((o.response.isSome ∧ o.error = none) ∨
        (o.response = none ∧ o.error.isSome)) ∧
      (o.duration ≠ "" ∨ (o.duration = "" ∧ o.error = some "context cancelled")) := by
  obtain ⟨l, hl, hperm⟩ := hrep
  obtain ⟨-, hmem⟩ := runJobs_shape (mkJobs ips port cmd params) 0 l hl
  intro o ho
  have h2 : o ∈ l.map Prod.fst := hperm.mem_iff.mpr ho
  obtain ⟨x, hx, rfl⟩ := List.mem_map.mp h2
  obtain ⟨j, hj, i2, hpj⟩ := hmem x hx
  obtain ⟨hip, hport, hjcmd, -⟩ := mkJobs_mem hj
  obtain ⟨e1, e2, e3, e4, e5⟩ := processJob_shape (hclock j) hpj
  exact ⟨by rw [e3, hjcmd], by rw [e2, hport], by rw [e1]; exact hip, e4, e5⟩

/-- Witness for `outcome_shape_spec`: a one-host `summary` run against
the test double; the call fails, so the Outcome carries the error, no
payload, and the measured duration. -/
theorem outcome_shape_spec_witness :
    ((∀ j : Job, cxClock j ≠ "") ∧
      Reports cxNet cxClock noneCancelled ["10.0.0.1"] 4028 "summary" []
        [⟨"10.0.0.1", 4028, "summary", none, some "unreachable", "1ms"⟩]) ∧
    (∀ o ∈ [(⟨"10.0.0.1", 4028, "summary", none, some "unreachable", "1ms"⟩ : Result)],
      o.command = "summary" ∧ o.port = 4028 ∧ o.ip ∈ ["10.0.0.1"] ∧
      ((o.response.isSome ∧ o.error = none) ∨
        (o.response = none ∧ o.error.isSome)) ∧
      (o.duration ≠ "" ∨ (o.duration = "" ∧ o.error = some "context cancelled"))) := by
  have hrep : Reports cxNet cxClock noneCancelled ["10.0.0.1"] 4028 "summary" []
      [⟨"10.0.0.1", 4028, "summary", none, some "unreachable", "1ms"⟩] :=
    ⟨[(⟨"10.0.0.1", 4028, "summary", none, some "unreachable", "1ms"⟩, 1)],
      by decide, by decide⟩
  have hck : ∀ j : Job, cxClock j ≠ "" := by
    intro j
    change ("1ms" : String) ≠ ""
    decide
  exact ⟨⟨hck, hrep⟩, outcome_shape_spec hck hrep⟩

/-- Counterexample to C8 as stated: a cancelled run produces an Outcome
whose `Duration` field was never assigned — it keeps the zero value
`""`, so the Outcome does not contain the elapsed duration of any
execution. -/
theorem cancelled_outcome_empty_duration :
    Reports cxNet cxClock allCancelled ["10.0.0.1"] 4028 "summary" []
      [⟨"10.0.0.1", 4028, "summary", none, some "context cancelled", ""⟩] ∧
    (⟨"10.0.0.1", 4028, "summary", none, some "context cancelled",
      ""⟩ : Result).duration = "" :=
  ⟨⟨[(⟨"10.0.0.1", 4028, "summary", none, some "context cancelled", ""⟩, 0)],
    by decide, by decide⟩, rfl⟩

/-- C9: constructing the client with a non-positive configured worker
count yields an effective pool size of exactly 10; any positive count
is kept unchanged. -/
theorem worker_count_coercion (timeout w : Int) :
    (w ≤ 0 → (NewClient timeout w).workers = 10) ∧
    (0 < w → (NewClient timeout w).workers = w) := by
  constructor
  · intro h
    unfold NewClient
    simp only [if_pos h]
  · intro h
    unfold NewClient
    simp only [if_neg (by omega : ¬ w ≤ 0)]

/-- Witness for `worker_count_coercion` at worker counts 0, -3 and 7. -/
theorem worker_count_coercion_witness :
    ((0 : Int) ≤ 0 ∧ (NewClient 5 0).workers = 10) ∧
    ((-3 : Int) ≤ 0 ∧ (NewClient 5 (-3)).workers = 10) ∧
    ((0 : Int) < 7 ∧ (NewClient 5 7).workers = 7) :=
  ⟨⟨by decide, (worker_count_coercion 5 0).1 (by decide)⟩,
   ⟨by decide, (worker_count_coercion 5 (-3)).1 (by decide)⟩,
   ⟨by decide, (worker_count_coercion 5 7).2 (by decide)⟩⟩

end MinerCli
